import Mathlib

/-!
Shallow embedding of the trie implementation of the TrieVisualiser
repository.

Sources embedded:
* `src/src/App.jsx` — classes `TrieNode` and `Trie` (insert / search /
  delete / getD3Data) with input validation and lowercasing; referred to
  here with the `AppTrie` prefix.
* `src/src/components/TrieNode.js` and `src/src/components/Trie.js` —
  the standalone copy of the same classes, without validation and without
  lowercasing; referred to here with the `CompTrie` prefix.

Modelling decisions:
* A JavaScript `Map` keyed by characters is modelled as an association
  list in insertion order (`Children`).  `Map.set` replaces the value in
  place when the key is present and appends at the end otherwise;
  `Map.delete` removes the entry of the key.  Since a `Map` never holds a
  duplicate key, removing every entry with the key is the same operation.
* JavaScript numbers that are only incremented and decremented by one
  (`frequency`, `wordCount`) are modelled as `Int`.
* `word.toLowerCase()` is modelled as mapping `Char.toLower` over the
  characters, matching the basic-latin lowercasing the spec asks for.
* Values that may be `null` / `undefined` / non-strings are modelled by
  `JSValue`; `throw new Error(msg)` is modelled as `Except.error msg`
  returned together with the (unmutated) trie state.
-/

/-- Model of the JavaScript values the trie methods may receive. -/
inductive JSValue where
  | nullV
  | undefinedV
  | boolV (b : Bool)
  | numV (n : Int)
  | strV (s : String)
deriving DecidableEq

/-- JavaScript truthiness of a `JSValue` (the `!word` test). -/
def jsTruthy : JSValue → Bool
  | .nullV => false
  | .undefinedV => false
  | .boolV b => b
  | .numV n => n != 0
  | .strV s => s != ""

/-- The `typeof word === 'string'` test. -/
def jsIsString : JSValue → Bool
  | .strV _ => true
  | _ => false

/-- Extract the string payload (only used after the string guard). -/
def jsAsString : JSValue → String
  | .strV s => s
  | _ => ""

mutual
/-- Embeds class `TrieNode`: a character value (empty only at the root),
an end-of-word flag, a frequency counter and a children map. -/
inductive TrieNode where
  | mk (value : String) (isEndOfWord : Bool) (frequency : Int)
       (children : Children)
/-- Embeds the `children` JavaScript `Map` as an association list kept in
insertion order. -/
inductive Children where
  | nil
  | cons (key : Char) (child : TrieNode) (rest : Children)
end

def TrieNode.value : TrieNode → String
  | .mk v _ _ _ => v

def TrieNode.isEndOfWord : TrieNode → Bool
  | .mk _ e _ _ => e

def TrieNode.frequency : TrieNode → Int
  | .mk _ _ f _ => f

def TrieNode.children : TrieNode → Children
  | .mk _ _ _ ch => ch

/-- Embeds `new TrieNode(value)`. -/
def TrieNode.new (v : String) : TrieNode := .mk v false 0 .nil

/-- Embeds `children.get(c)` (also used for the `children.has(c)` test). -/
def Children.get : Children → Char → Option TrieNode
  | .nil, _ => none
  | .cons k n rest, c => if k = c then some n else rest.get c

/-- Embeds `children.set(c, v)`: replace in place when present, append
otherwise. -/
def Children.set : Children → Char → TrieNode → Children
  | .nil, c, v => .cons c v .nil
  | .cons k n rest, c, v =>
    if k = c then .cons k v rest else .cons k n (rest.set c v)

/-- Embeds `children.delete(c)` (a `Map` holds the key at most once). -/
def Children.del : Children → Char → Children
  | .nil, _ => .nil
  | .cons k n rest, c =>
    if k = c then rest.del c else .cons k n (rest.del c)

/-- Embeds `children.size`. -/
def Children.size : Children → Nat
  | .nil => 0
  | .cons _ _ rest => rest.size + 1

def Children.isNil : Children → Bool
  | .nil => true
  | .cons _ _ _ => false

/-- Embeds the character walk of `insert` (both copies are identical at
this level): descend along the characters, creating missing nodes, then
mark the landing node.  Returns the updated node and whether the landing
node had `isEndOfWord = false` before (i.e. whether `wordCount` is
incremented). -/
def insertGo : TrieNode → List Char → TrieNode × Bool
  | .mk v e f ch, [] => (.mk v true (f + 1) ch, !e)
  | .mk v e f ch, c :: cs =>
    let child := match ch.get c with
      | some n => n
      | none => TrieNode.new (String.singleton c)
    let r := insertGo child cs
    (.mk v e f (ch.set c r.1), r.2)

/-- Embeds the character walk of `search` (identical in both copies). -/
def searchGo : TrieNode → List Char → Bool
  | n, [] => n.isEndOfWord
  | n, c :: cs =>
    match n.children.get c with
    | none => false
    | some child => searchGo child cs

/-- Embeds `deleteRecursive(node, word, depth)` (identical in both copies
once the characters are fixed).  Returns the updated node, the
"should my caller prune the edge to me" flag, and whether `wordCount`
was decremented. -/
def deleteGo : TrieNode → List Char → TrieNode × Bool × Bool
  | .mk v e f ch, [] =>
    if !e then (.mk v e f ch, false, false)
    else (.mk v false (f - 1) ch, ch.size == 0, true)
  | .mk v e f ch, c :: cs =>
    match ch.get c with
    | none => (.mk v e f ch, false, false)
    | some child =>
      let r := deleteGo child cs
      if r.2.1 then
        let ch2 := ch.del c
        (.mk v e f ch2, ch2.size == 0 && !e, r.2.2)
      else
        (.mk v e f (ch.set c r.1), false, r.2.2)

/-- Embeds class `Trie`: the root node and the word count. -/
structure Trie where
  root : TrieNode
  wordCount : Int

/-- Embeds the `Trie` constructor. -/
def Trie.empty : Trie := ⟨TrieNode.new "", 0⟩

/-- Embeds `word.toLowerCase()` as a character list. -/
def lowerChars (s : String) : List Char := s.data.map Char.toLower

/-- The message of the error thrown by `insert` and `delete`. -/
def invalidMsg : String := "Invalid input: Word must be a non-empty string"

namespace AppTrie

/-- Embeds `Trie.insert` of `App.jsx` (guard, lowercasing, walk). -/
def insert (t : Trie) (w : JSValue) : Except String Bool × Trie :=
  if !jsTruthy w || !jsIsString w then (.error invalidMsg, t)
  else
    let r := insertGo t.root (lowerChars (jsAsString w))
    (.ok true, ⟨r.1, t.wordCount + (if r.2 then 1 else 0)⟩)

/-- Embeds `Trie.search` of `App.jsx` (guard returns false, lowercasing,
walk). -/
def search (t : Trie) (w : JSValue) : Bool :=
  if !jsTruthy w || !jsIsString w then false
  else searchGo t.root (lowerChars (jsAsString w))

/-- Embeds `Trie.delete` of `App.jsx`: the word is lowercased at the call
of `deleteRecursive` and each character is lowercased again inside it. -/
def delete (t : Trie) (w : JSValue) : Except String Bool × Trie :=
  if !jsTruthy w || !jsIsString w then (.error invalidMsg, t)
  else
    let r := deleteGo t.root ((lowerChars (jsAsString w)).map Char.toLower)
    (.ok true, ⟨r.1, t.wordCount - (if r.2.2 then 1 else 0)⟩)

end AppTrie

namespace CompTrie

/-- Embeds `Trie.insert` of `components/Trie.js`: no guard, no
lowercasing. -/
def insert (t : Trie) (s : String) : Bool × Trie :=
  let r := insertGo t.root s.data
  (true, ⟨r.1, t.wordCount + (if r.2 then 1 else 0)⟩)

/-- Embeds `Trie.search` of `components/Trie.js`. -/
def search (t : Trie) (s : String) : Bool := searchGo t.root s.data

/-- Embeds `Trie.delete` of `components/Trie.js`. -/
def delete (t : Trie) (s : String) : Bool × Trie :=
  let r := deleteGo t.root s.data
  (true, ⟨r.1, t.wordCount - (if r.2.2 then 1 else 0)⟩)

end CompTrie

/-- Record produced by `getD3Data` for one trie node. -/
inductive D3Node where
  | mk (name : String) (value : String) (isEndOfWord : Bool)
       (frequency : Int) (depth : Nat) (children : Option (List D3Node))

mutual
/-- Embeds `convertToD3Format(node, parentName, depth)` (identical in
both copies): accumulated display name, raw fields, and `undefined`
(here `none`) instead of an empty children array. -/
def convertToD3Format : TrieNode → String → Nat → D3Node
  | .mk v e f ch, parentName, depth =>
    let nodeName := parentName ++ (if v = "" then "root" else v)
    let cs := convertChildrenD3 ch nodeName (depth + 1)
    .mk nodeName v e f depth (if cs.isEmpty then none else some cs)
/-- Children of `convertToD3Format`, in map iteration order. -/
def convertChildrenD3 : Children → String → Nat → List D3Node
  | .nil, _, _ => []
  | .cons _ child rest, name, d =>
    convertToD3Format child name d :: convertChildrenD3 rest name d
end

/-- Embeds `Trie.getD3Data` of `App.jsx`. -/
def AppTrie.getD3Data (t : Trie) : D3Node := convertToD3Format t.root "" 0

/-- Embeds `Trie.getD3Data` of `components/Trie.js` (textually the same
function). -/
def CompTrie.getD3Data (t : Trie) : D3Node := convertToD3Format t.root "" 0

/-- Trie states reachable from a fresh `new Trie()` by the mutating
operations of the `App.jsx` class (search does not mutate). -/
inductive Reachable : Trie → Prop where
  | empty : Reachable Trie.empty
  | insert {t : Trie} (w : JSValue) :
      Reachable t → Reachable (AppTrie.insert t w).2
  | delete {t : Trie} (w : JSValue) :
      Reachable t → Reachable (AppTrie.delete t w).2

/-! ### Association-list (JavaScript `Map`) lemmas -/

theorem Children.get_set_self : ∀ (l : Children) (c : Char) (v : TrieNode),
    (l.set c v).get c = some v
  | .nil, c, v => by simp [Children.set, Children.get]
  | .cons k n rest, c, v => by
    by_cases h : k = c
    · simp [Children.set, h, Children.get]
    · simp [Children.set, h, Children.get, get_set_self rest c v]

theorem Children.get_set_ne : ∀ (l : Children) (c d : Char) (v : TrieNode),
    d ≠ c → (l.set c v).get d = l.get d
  | .nil, c, d, v, h => by simp [Children.set, Children.get, Ne.symm h]
  | .cons k n rest, c, d, v, h => by
    by_cases hkc : k = c
    · subst hkc
      simp [Children.set, Children.get, Ne.symm h]
    · by_cases hkd : k = d
      · subst hkd
        simp [Children.set, hkc, Children.get]
      · simp [Children.set, hkc, Children.get, hkd, get_set_ne rest c d v h]

theorem Children.get_del_self : ∀ (l : Children) (c : Char),
    (l.del c).get c = none
  | .nil, c => by simp [Children.del, Children.get]
  | .cons k n rest, c => by
    by_cases h : k = c
    · simp [Children.del, h, get_del_self rest c]
    · simp [Children.del, h, Children.get, get_del_self rest c]

theorem Children.get_del_ne : ∀ (l : Children) (c d : Char),
    d ≠ c → (l.del c).get d = l.get d
  | .nil, c, d, h => by simp [Children.del]
  | .cons k n rest, c, d, h => by
    by_cases hkc : k = c
    · subst hkc
      simp [Children.del, Children.get, Ne.symm h, get_del_ne rest k d h]
    · simp [Children.del, hkc, Children.get, get_del_ne rest c d h]

theorem Children.set_isNil (l : Children) (c : Char) (v : TrieNode) :
    (l.set c v).isNil = false := by
  cases l with
  | nil => rfl
  | cons k n rest =>
    by_cases h : k = c <;> simp [Children.set, h, Children.isNil]

theorem Children.size_eq_zero_iff_isNil (l : Children) :
    (l.size == 0) = l.isNil := by
  cases l with
  | nil => rfl
  | cons k n rest => simp [Children.size, Children.isNil]

/-! ### Basic facts about the walks -/

theorem searchGo_new (v : String) : ∀ cs : List Char,
    searchGo (TrieNode.new v) cs = false
  | [] => rfl
  | _ :: _ => rfl

/-- After inserting a path, searching the same path reports `true`. -/
theorem searchGo_insertGo : ∀ (cs : List Char) (n : TrieNode),
    searchGo (insertGo n cs).1 cs = true := by
  intro cs
  induction cs with
  | nil =>
    intro n
    cases n with
    | mk v e f ch => rfl
  | cons c cs ih =>
    intro n
    cases n with
    | mk v e f ch =>
      simp only [insertGo, searchGo, TrieNode.children, Children.get_set_self]
      exact ih _

/-- The `wordCount` increment flag of the insert walk is exactly the
negation of a prior search of the same path. -/
theorem insertGo_inc : ∀ (cs : List Char) (n : TrieNode),
    (insertGo n cs).2 = !searchGo n cs := by
  intro cs
  induction cs with
  | nil =>
    intro n
    cases n with
    | mk v e f ch => rfl
  | cons c cs ih =>
    intro n
    cases n with
    | mk v e f ch =>
      simp only [insertGo, searchGo, TrieNode.children]
      cases hg : ch.get c with
      | none => simp [ih, searchGo_new]
      | some child => simp [ih]

/-- Deleting a freshly inserted path clears membership and reports the
`wordCount` decrement. -/
theorem deleteGo_insertGo : ∀ (cs : List Char) (n : TrieNode),
    searchGo (deleteGo (insertGo n cs).1 cs).1 cs = false ∧
    (deleteGo (insertGo n cs).1 cs).2.2 = true := by
  intro cs
  induction cs with
  | nil =>
    intro n
    cases n with
    | mk v e f ch => exact ⟨rfl, rfl⟩
  | cons c cs ih =>
    intro n
    cases n with
    | mk v e f ch =>
      simp only [insertGo]
      generalize (match ch.get c with
        | some n => n
        | none => TrieNode.new (String.singleton c)) = child
      obtain ⟨h1, h2⟩ := ih child
      simp only [deleteGo, TrieNode.children, Children.get_set_self]
      cases hr : (deleteGo (insertGo child cs).1 cs).2.1 with
      | true =>
        simp only [hr, if_pos]
        refine ⟨?_, h2⟩
        simp [searchGo, TrieNode.children, Children.get_del_self]
      | false =>
        simp only [hr, if_neg, Bool.false_eq_true, not_false_iff]
        refine ⟨?_, h2⟩
        simpa [searchGo, TrieNode.children, Children.get_set_self] using h1

/-! ### Lowercasing is idempotent (the `delete` of `App.jsx` lowercases
the word once at the call site and once per character inside
`deleteRecursive`) -/

theorem toNat_ofNat_of_valid (n : Nat) (h : n.isValidChar) :
    (Char.ofNat n).toNat = n := by
  simp [Char.ofNat, h, Char.ofNatAux, Char.toNat, UInt32.toNat,
    BitVec.toNat_ofNatLt]

theorem char_toLower_fix (d : Char)
    (h : ¬(d.toNat ≥ 65 ∧ d.toNat ≤ 90)) : Char.toLower d = d := by
  unfold Char.toLower
  exact if_neg h

theorem char_toLower_idem (c : Char) :
    Char.toLower (Char.toLower c) = Char.toLower c := by
  by_cases h : c.toNat ≥ 65 ∧ c.toNat ≤ 90
  · have h2 : Char.toLower c = Char.ofNat (c.toNat + 32) := by
      unfold Char.toLower
      exact if_pos h
    have hv : Nat.isValidChar (c.toNat + 32) := Or.inl (by omega)
    have ht : (Char.toLower c).toNat = c.toNat + 32 := by
      rw [h2, toNat_ofNat_of_valid _ hv]
    apply char_toLower_fix
    rw [ht]
    omega
  · simp only [char_toLower_fix c h]

theorem map_toLower_lowerChars (s : String) :
    (lowerChars s).map Char.toLower = lowerChars s := by
  unfold lowerChars
  rw [List.map_map]
  apply List.map_congr_left
  intro c _
  exact char_toLower_idem c

/-- Searching any path in a node with no children and a cleared
end-of-word flag reports false. -/
theorem searchGo_dead : ∀ (ds : List Char) (n : TrieNode),
    n.children.isNil = true → n.isEndOfWord = false → searchGo n ds = false := by
  intro ds n h1 h2
  cases n with
  | mk v e f ch =>
    cases ch with
    | cons k m rest => simp [Children.isNil, TrieNode.children] at h1
    | nil =>
      cases ds with
      | nil => simpa [searchGo, TrieNode.isEndOfWord] using h2
      | cons d ds => simp [searchGo, TrieNode.children, Children.get]

/-- When the delete walk asks its caller to prune it, the returned node
is childless and not end-of-word. -/
theorem deleteGo_shouldDel : ∀ (cs : List Char) (n : TrieNode),
    (deleteGo n cs).2.1 = true →
    (deleteGo n cs).1.children.isNil = true ∧
    (deleteGo n cs).1.isEndOfWord = false := by
  intro cs n
  cases n with
  | mk v e f ch =>
    cases cs with
    | nil =>
      cases e with
      | false => intro h; simp [deleteGo] at h
      | true =>
        intro h
        simp only [deleteGo, Bool.not_true, Bool.false_eq_true, if_false] at h ⊢
        rw [Children.size_eq_zero_iff_isNil] at h
        exact ⟨h, rfl⟩
    | cons c cs =>
      intro h
      simp only [deleteGo] at h ⊢
      cases hg : ch.get c with
      | none => simp [hg] at h
      | some child =>
        simp only [hg] at h ⊢
        cases hr : (deleteGo child cs).2.1 with
        | false => simp [hr] at h
        | true =>
          simp only [hr, if_true] at h ⊢
          rw [Bool.and_eq_true, Children.size_eq_zero_iff_isNil,
            Bool.not_eq_true'] at h
          simpa [TrieNode.children, TrieNode.isEndOfWord] using h

/-- Deleting one path does not change the search result of any other
path. -/
theorem searchGo_deleteGo_ne : ∀ (cs ds : List Char) (n : TrieNode),
    cs ≠ ds → searchGo (deleteGo n cs).1 ds = searchGo n ds := by
  intro cs
  induction cs with
  | nil =>
    intro ds n hne
    cases n with
    | mk v e f ch =>
      cases ds with
      | nil => exact absurd rfl hne
      | cons d ds =>
        cases e with
        | false => rfl
        | true => simp [deleteGo, searchGo, TrieNode.children]
  | cons c cs ih =>
    intro ds n hne
    cases n with
    | mk v e f ch =>
      cases ds with
      | nil =>
        simp only [deleteGo]
        cases hg : ch.get c with
        | none => rfl
        | some child =>
          cases hr : (deleteGo child cs).2.1 with
          | true => simp [hr, searchGo, TrieNode.isEndOfWord]
          | false => simp [hr, searchGo, TrieNode.isEndOfWord]
      | cons d ds =>
        by_cases hcd : d = c
        · subst hcd
          have hcs : cs ≠ ds := by
            intro hcon
            exact hne (by rw [hcon])
          simp only [deleteGo]
          cases hg : ch.get d with
          | none => rfl
          | some child =>
            cases hr : (deleteGo child cs).2.1 with
            | true =>
              obtain ⟨hd1, hd2⟩ := deleteGo_shouldDel cs child (by rw [hr])
              have hfalse : searchGo child ds = false := by
                rw [← ih ds child hcs]
                exact searchGo_dead ds _ hd1 hd2
              simp [hr, searchGo, TrieNode.children, Children.get_del_self,
                hg, hfalse]
            | false =>
              simp [hr, searchGo, TrieNode.children, Children.get_set_self,
                hg, ih ds child hcs]
        · simp only [deleteGo]
          cases hg : ch.get c with
          | none => rfl
          | some child =>
            cases hr : (deleteGo child cs).2.1 with
            | true =>
              simp [hr, searchGo, TrieNode.children,
                Children.get_del_ne ch c d hcd]
            | false =>
              simp [hr, searchGo, TrieNode.children,
                Children.get_set_ne ch c d _ hcd]

/-- Inserting one path does not change the search result of any other
path. -/
theorem searchGo_insertGo_ne : ∀ (cs ds : List Char) (n : TrieNode),
    cs ≠ ds → searchGo (insertGo n cs).1 ds = searchGo n ds := by
  intro cs
  induction cs with
  | nil =>
    intro ds n hne
    cases n with
    | mk v e f ch =>
      cases ds with
      | nil => exact absurd rfl hne
      | cons d ds => simp [insertGo, searchGo, TrieNode.children]
  | cons c cs ih =>
    intro ds n hne
    cases n with
    | mk v e f ch =>
      cases ds with
      | nil => simp [insertGo, searchGo, TrieNode.isEndOfWord]
      | cons d ds =>
        by_cases hcd : d = c
        · subst hcd
          have hcs : cs ≠ ds := by
            intro hcon
            exact hne (by rw [hcon])
          simp only [insertGo]
          cases hg : ch.get d with
          | none =>
            have h1 : searchGo (insertGo (TrieNode.new (String.singleton d)) cs).1 ds = false := by
              rw [ih ds _ hcs]
              exact searchGo_new _ ds
            simp [searchGo, TrieNode.children, Children.get_set_self, hg, h1]
          | some child =>
            simp [searchGo, TrieNode.children, Children.get_set_self, hg,
              ih ds child hcs]
        · simp only [insertGo]
          simp [searchGo, TrieNode.children,
            Children.get_set_ne ch c d _ hcd]

/-! ### Observers used to state the claims: node lookup, frequency at a
path, path existence, and the pruning invariant -/

/-- The node reached by walking the given characters, if the whole path
exists. -/
def nodeAt : TrieNode → List Char → Option TrieNode
  | n, [] => some n
  | n, c :: cs =>
    match n.children.get c with
    | none => none
    | some child => nodeAt child cs

/-- The `frequency` field of the node at a path (0 when the path does
not exist, matching the initial frequency of a fresh node). -/
def freqAtD (n : TrieNode) (cs : List Char) : Int :=
  match nodeAt n cs with
  | none => 0
  | some m => m.frequency

/-- Whether the node at the given path exists. -/
def pathEx : TrieNode → List Char → Bool
  | _, [] => true
  | n, c :: cs =>
    match n.children.get c with
    | none => false
    | some child => pathEx child cs

/-- A node the deletion pruning must keep: it is end-of-word or still
has children.  The spec forbids non-live nodes anywhere below the
root. -/
def TrieNode.live (n : TrieNode) : Bool := n.isEndOfWord || !n.children.isNil

mutual
/-- Every node strictly below this one is live (the invariant the spec
states for the whole tree below the root). -/
def TrieNode.pruned : TrieNode → Bool
  | .mk _ _ _ ch => ch.allLivePruned
/-- Every node in this children map is live and recursively pruned. -/
def Children.allLivePruned : Children → Bool
  | .nil => true
  | .cons _ n rest => n.live && n.pruned && rest.allLivePruned
end

theorem freqAtD_new (v : String) : ∀ cs : List Char,
    freqAtD (TrieNode.new v) cs = 0
  | [] => rfl
  | _ :: _ => rfl

/-- Inserting a path increments the frequency stored at its landing node
by exactly one (a missing node counts as frequency 0). -/
theorem freqAtD_insertGo : ∀ (cs : List Char) (n : TrieNode),
    freqAtD (insertGo n cs).1 cs = freqAtD n cs + 1 := by
  intro cs
  induction cs with
  | nil =>
    intro n
    cases n with
    | mk v e f ch => rfl
  | cons c cs ih =>
    intro n
    cases n with
    | mk v e f ch =>
      simp only [insertGo, freqAtD, nodeAt, TrieNode.children,
        Children.get_set_self]
      cases hg : ch.get c with
      | none =>
        have h0 : freqAtD (TrieNode.new (String.singleton c)) cs = 0 :=
          freqAtD_new _ cs
        simp only [freqAtD] at h0 ih ⊢
        rw [ih, h0]
      | some child =>
        simp only [freqAtD] at ih ⊢
        rw [ih]

theorem pathEx_of_searchGo : ∀ (ds : List Char) (n : TrieNode),
    searchGo n ds = true → pathEx n ds = true := by
  intro ds
  induction ds with
  | nil => intro n _; rfl
  | cons d ds ih =>
    intro n h
    simp only [searchGo] at h
    simp only [pathEx]
    cases hg : n.children.get d with
    | none => rw [hg] at h; exact absurd h (by simp)
    | some child => rw [hg] at h; exact ih child h

theorem pathEx_append : ∀ (ds es : List Char) (n : TrieNode),
    pathEx n (ds ++ es) = true → pathEx n ds = true := by
  intro ds
  induction ds with
  | nil => intro es n _; rfl
  | cons d ds ih =>
    intro es n h
    simp only [List.cons_append, pathEx] at h ⊢
    cases hg : n.children.get d with
    | none => rw [hg] at h; exact absurd h (by simp)
    | some child => rw [hg] at h; exact ih es child h

theorem Children.allLivePruned_get : ∀ (l : Children) (c : Char) (v : TrieNode),
    l.allLivePruned = true → l.get c = some v →
    v.live = true ∧ v.pruned = true
  | .nil, c, v, _, hg => by simp [Children.get] at hg
  | .cons k n rest, c, v, hl, hg => by
    rw [Children.allLivePruned, Bool.and_eq_true, Bool.and_eq_true] at hl
    rw [Children.get] at hg
    by_cases h : k = c
    · rw [if_pos h] at hg
      cases hg
      exact ⟨hl.1.1, hl.1.2⟩
    · rw [if_neg h] at hg
      exact allLivePruned_get rest c v hl.2 hg

theorem Children.allLivePruned_set : ∀ (l : Children) (c : Char) (v : TrieNode),
    l.allLivePruned = true → v.live = true → v.pruned = true →
    (l.set c v).allLivePruned = true
  | .nil, c, v, _, hv1, hv2 => by
    simp [Children.set, Children.allLivePruned, hv1, hv2]
  | .cons k n rest, c, v, hl, hv1, hv2 => by
    rw [Children.allLivePruned, Bool.and_eq_true, Bool.and_eq_true] at hl
    rw [Children.set]
    by_cases h : k = c
    · rw [if_pos h]
      simp [Children.allLivePruned, hv1, hv2, hl.2]
    · rw [if_neg h]
      simp [Children.allLivePruned, hl.1.1, hl.1.2,
        allLivePruned_set rest c v hl.2 hv1 hv2]

theorem Children.allLivePruned_del : ∀ (l : Children) (c : Char),
    l.allLivePruned = true → (l.del c).allLivePruned = true
  | .nil, _, _ => rfl
  | .cons k n rest, c, hl => by
    rw [Children.allLivePruned, Bool.and_eq_true, Bool.and_eq_true] at hl
    rw [Children.del]
    by_cases h : k = c
    · rw [if_pos h]
      exact allLivePruned_del rest c hl.2
    · rw [if_neg h]
      simp [Children.allLivePruned, hl.1.1, hl.1.2,
        allLivePruned_del rest c hl.2]

/-- Inserting a path keeps the pruning invariant, and the updated node is
always live (it is end-of-word or has the freshly walked child). -/
theorem insertGo_pruned : ∀ (cs : List Char) (n : TrieNode),
    n.pruned = true →
    (insertGo n cs).1.pruned = true ∧ (insertGo n cs).1.live = true := by
  intro cs
  induction cs with
  | nil =>
    intro n h
    cases n with
    | mk v e f ch =>
      refine ⟨h, ?_⟩
      simp [insertGo, TrieNode.live, TrieNode.isEndOfWord]
  | cons c cs ih =>
    intro n h
    cases n with
    | mk v e f ch =>
      have hch : ch.allLivePruned = true := h
      have hp0 : (match ch.get c with
          | some m => m
          | none => TrieNode.new (String.singleton c)).pruned = true := by
        cases hg : ch.get c with
        | none => rfl
        | some child => exact (Children.allLivePruned_get ch c child hch hg).2
      obtain ⟨hp, hl⟩ := ih _ hp0
      constructor
      · exact Children.allLivePruned_set ch c _ hch hl hp
      · simp [insertGo, TrieNode.live, TrieNode.children, Children.set_isNil]

/-- Deleting a path keeps the pruning invariant; moreover, when the walk
does not ask the caller to prune the node, a live node stays live. -/
theorem deleteGo_pruned : ∀ (cs : List Char) (n : TrieNode),
    n.pruned = true →
    (deleteGo n cs).1.pruned = true ∧
    ((deleteGo n cs).2.1 = false → n.live = true →
      (deleteGo n cs).1.live = true) := by
  intro cs
  induction cs with
  | nil =>
    intro n h
    cases n with
    | mk v e f ch =>
      cases e with
      | false => exact ⟨h, fun _ hl => hl⟩
      | true =>
        refine ⟨h, ?_⟩
        intro hsd _
        simp only [deleteGo, Bool.not_true, Bool.false_eq_true, if_false] at hsd ⊢
        rw [Children.size_eq_zero_iff_isNil] at hsd
        simp [TrieNode.live, TrieNode.isEndOfWord, TrieNode.children, hsd]
  | cons c cs ih =>
    intro n h
    cases n with
    | mk v e f ch =>
      have hch : ch.allLivePruned = true := h
      cases hg : ch.get c with
      | none =>
        simp only [deleteGo, hg]
        exact ⟨h, fun _ hl => hl⟩
      | some child =>
        obtain ⟨hcl, hcp⟩ := Children.allLivePruned_get ch c child hch hg
        obtain ⟨hp, hlf⟩ := ih child hcp
        simp only [deleteGo, hg]
        cases hr : (deleteGo child cs).2.1 with
        | true =>
          simp only [hr, if_true]
          constructor
          · exact Children.allLivePruned_del ch c hch
          · intro hsd _
            cases e with
            | true => simp [TrieNode.live, TrieNode.isEndOfWord]
            | false =>
              simp only [Bool.not_false, Bool.and_true] at hsd
              rw [Children.size_eq_zero_iff_isNil] at hsd
              simp [TrieNode.live, TrieNode.isEndOfWord, TrieNode.children,
                hsd]
        | false =>
          simp only [hr, Bool.false_eq_true, if_false]
          constructor
          · exact Children.allLivePruned_set ch c _ hch
              (hlf (by rw [hr]) hcl) hp
          · intro _ _
            simp [TrieNode.live, TrieNode.children, Children.set_isNil]

/-! ### Unfolding the validated operations of the `App.jsx` class -/

theorem AppTrie.insert_valid (t : Trie) (s : String) (hs : s ≠ "") :
    AppTrie.insert t (.strV s) =
    (Except.ok true,
      ⟨(insertGo t.root (lowerChars s)).1,
       t.wordCount + (if (insertGo t.root (lowerChars s)).2 then 1 else 0)⟩) := by
  unfold AppTrie.insert
  have h1 : jsTruthy (JSValue.strV s) = true := by simp [jsTruthy, hs]
  simp [h1, jsIsString, jsAsString]

theorem AppTrie.search_valid (t : Trie) (s : String) (hs : s ≠ "") :
    AppTrie.search t (.strV s) = searchGo t.root (lowerChars s) := by
  unfold AppTrie.search
  have h1 : jsTruthy (JSValue.strV s) = true := by simp [jsTruthy, hs]
  simp [h1, jsIsString, jsAsString]

theorem AppTrie.delete_valid (t : Trie) (s : String) (hs : s ≠ "") :
    AppTrie.delete t (.strV s) =
    (Except.ok true,
      ⟨(deleteGo t.root (lowerChars s)).1,
       t.wordCount - (if (deleteGo t.root (lowerChars s)).2.2 then 1 else 0)⟩) := by
  unfold AppTrie.delete
  have h1 : jsTruthy (JSValue.strV s) = true := by simp [jsTruthy, hs]
  simp [h1, jsIsString, jsAsString, map_toLower_lowerChars]

/-- Every reachable trie state satisfies the pruning invariant below the
root. -/
theorem reachable_pruned (t : Trie) (h : Reachable t) :
    t.root.pruned = true := by
  induction h with
  | empty => rfl
  | @insert t' w _ ih =>
    unfold AppTrie.insert
    by_cases hv : (!jsTruthy w || !jsIsString w) = true
    · rw [if_pos hv]
      exact ih
    · rw [if_neg hv]
      exact (insertGo_pruned _ _ ih).1
  | @delete t' w _ ih =>
    unfold AppTrie.delete
    by_cases hv : (!jsTruthy w || !jsIsString w) = true
    · rw [if_pos hv]
      exact ih
    · rw [if_neg hv]
      exact (deleteGo_pruned _ _ ih).1

/-! ### Comparing the two trie implementations on sequences of
operations -/

/-- One user-level trie operation with its word. -/
inductive Op where
  | ins (s : String)
  | del (s : String)
  | sea (s : String)

def Op.word : Op → String
  | .ins s => s
  | .del s => s
  | .sea s => s

/-- Valid input for the comparison of the two implementations: a
non-empty word that is already lowercase. -/
def validOp (o : Op) : Bool :=
  (o.word != "") && (lowerChars o.word == o.word.data)

/-- One step of the `App.jsx` implementation, accumulating search
results. -/
def stepApp (p : Trie × List Bool) (o : Op) : Trie × List Bool :=
  match o with
  | .ins s => ((AppTrie.insert p.1 (.strV s)).2, p.2)
  | .del s => ((AppTrie.delete p.1 (.strV s)).2, p.2)
  | .sea s => (p.1, p.2 ++ [AppTrie.search p.1 (.strV s)])

/-- Running a sequence of operations on a fresh `App.jsx` trie. -/
def runApp (ops : List Op) : Trie × List Bool :=
  ops.foldl stepApp (Trie.empty, [])

/-- One step of the `components/Trie.js` implementation. -/
def stepComp (p : Trie × List Bool) (o : Op) : Trie × List Bool :=
  match o with
  | .ins s => ((CompTrie.insert p.1 s).2, p.2)
  | .del s => ((CompTrie.delete p.1 s).2, p.2)
  | .sea s => (p.1, p.2 ++ [CompTrie.search p.1 s])

/-- Running a sequence of operations on a fresh `components/Trie.js`
trie. -/
def runComp (ops : List Op) : Trie × List Bool :=
  ops.foldl stepComp (Trie.empty, [])

theorem step_agree (p : Trie × List Bool) (o : Op) (h : validOp o = true) :
    stepApp p o = stepComp p o := by
  cases o with
  | ins s =>
    rw [validOp, Bool.and_eq_true, bne_iff_ne, beq_iff_eq] at h
    simp only [Op.word] at h
    simp only [stepApp, stepComp, CompTrie.insert]
    rw [AppTrie.insert_valid p.1 s h.1, h.2]
  | del s =>
    rw [validOp, Bool.and_eq_true, bne_iff_ne, beq_iff_eq] at h
    simp only [Op.word] at h
    simp only [stepApp, stepComp, CompTrie.delete]
    rw [AppTrie.delete_valid p.1 s h.1, h.2]
  | sea s =>
    rw [validOp, Bool.and_eq_true, bne_iff_ne, beq_iff_eq] at h
    simp only [Op.word] at h
    simp only [stepApp, stepComp, CompTrie.search]
    rw [AppTrie.search_valid p.1 s h.1, h.2]

theorem foldl_agree : ∀ (ops : List Op) (p : Trie × List Bool),
    (∀ o ∈ ops, validOp o = true) →
    ops.foldl stepApp p = ops.foldl stepComp p
  | [], _, _ => rfl
  | o :: ops, p, h => by
    rw [List.foldl_cons, List.foldl_cons,
      step_agree p o (h o (List.mem_cons_self o ops)),
      foldl_agree ops _ (fun x hx => h x (List.mem_cons_of_mem o hx))]

/-! ### The claims -/

/-- C1: for every non-empty string w and every reachable trie state,
calling insert(w) and then search(w) on the same trie returns true. -/
theorem claim1_insert_then_search (t : Trie) (s : String)
    (hreach : Reachable t) (hs : s ≠ "") :
    AppTrie.search (AppTrie.insert t (.strV s)).2 (.strV s) = true := by
  rw [AppTrie.insert_valid t s hs, AppTrie.search_valid _ s hs]
  exact searchGo_insertGo (lowerChars s) t.root

/-- Witness for C1: the empty trie and the word "cat". -/
theorem claim1_witness :
    Reachable Trie.empty ∧ ("cat" : String) ≠ "" ∧
    AppTrie.search (AppTrie.insert Trie.empty (.strV "cat")).2
      (.strV "cat") = true :=
  ⟨Reachable.empty, by decide,
   claim1_insert_then_search Trie.empty "cat" Reachable.empty (by decide)⟩

/-- C2 fails as stated: on the reachable trie that already contains "a",
inserting "a" again and then deleting it leaves `wordCount` one below
its pre-insert value (the repeat insert does not increment it, the
delete does decrement it). -/
theorem claim2_counterexample :
    Reachable (AppTrie.insert Trie.empty (.strV "a")).2 ∧
    (AppTrie.delete
        (AppTrie.insert (AppTrie.insert Trie.empty (.strV "a")).2
          (.strV "a")).2
        (.strV "a")).2.wordCount ≠
      (AppTrie.insert Trie.empty (.strV "a")).2.wordCount :=
  ⟨Reachable.insert _ Reachable.empty, by decide⟩

/-- C2 (amended): for every non-empty string w and every reachable trie
state in which search(w) is false (w not already present), calling
insert(w) and then delete(w) leaves search(w) returning false and
restores wordCount to the value it had immediately before the insert. -/
theorem claim2_amended_insert_delete (t : Trie) (s : String)
    (hreach : Reachable t) (hs : s ≠ "")
    (habsent : AppTrie.search t (.strV s) = false) :
    AppTrie.search
        (AppTrie.delete (AppTrie.insert t (.strV s)).2 (.strV s)).2
        (.strV s) = false ∧
    (AppTrie.delete (AppTrie.insert t (.strV s)).2 (.strV s)).2.wordCount
      = t.wordCount := by
  rw [AppTrie.search_valid t s hs] at habsent
  rw [AppTrie.insert_valid t s hs, AppTrie.delete_valid _ s hs]
  obtain ⟨h1, h2⟩ := deleteGo_insertGo (lowerChars s) t.root
  constructor
  · rw [AppTrie.search_valid _ s hs]
    exact h1
  · have hinc : (insertGo t.root (lowerChars s)).2 = true := by
      rw [insertGo_inc, habsent]
      rfl
    simp only [hinc, h2, if_true]
    omega

/-- Witness for the amended C2: the empty trie and the word "a". -/
theorem claim2_witness :
    Reachable Trie.empty ∧ ("a" : String) ≠ "" ∧
    AppTrie.search Trie.empty (.strV "a") = false ∧
    (AppTrie.delete (AppTrie.insert Trie.empty (.strV "a")).2
        (.strV "a")).2.wordCount = Trie.empty.wordCount :=
  ⟨Reachable.empty, by decide, by decide,
   (claim2_amended_insert_delete Trie.empty "a" Reachable.empty (by decide)
      (by decide)).2⟩

/-- C3: in every reachable trie state no node below the root is
childless with isEndOfWord = false; inserting "cat" into the empty trie
and deleting it leaves exactly the empty trie again (only the root
remains), and the root is kept even though the delete walk reported it
as prunable. -/
theorem claim3_pruning_invariant :
    (∀ t : Trie, Reachable t → t.root.pruned = true) ∧
    (AppTrie.delete (AppTrie.insert Trie.empty (.strV "cat")).2
        (.strV "cat")).2 = Trie.empty ∧
    (deleteGo (AppTrie.insert Trie.empty (.strV "cat")).2.root
        (lowerChars "cat")).2.1 = true :=
  ⟨reachable_pruned, rfl, by decide⟩

/-- Witness for C3: the invariant holds at the reachable empty trie. -/
theorem claim3_witness :
    Trie.empty.root.pruned = true ∧
    (AppTrie.delete (AppTrie.insert Trie.empty (.strV "cat")).2
        (.strV "cat")).2 = Trie.empty :=
  ⟨claim3_pruning_invariant.1 Trie.empty Reachable.empty,
   claim3_pruning_invariant.2.1⟩

/-- C4: given a word failing the guard (absent, empty, or not a string),
insert and delete raise the InvalidInput error and return the trie
completely unchanged (no mutation happened). -/
theorem claim4_invalid_input (t : Trie) (w : JSValue)
    (h : (!jsTruthy w || !jsIsString w) = true) :
    AppTrie.insert t w = (Except.error invalidMsg, t) ∧
    AppTrie.delete t w = (Except.error invalidMsg, t) := by
  unfold AppTrie.insert AppTrie.delete
  rw [if_pos h, if_pos h]
  exact ⟨rfl, rfl⟩

/-- Witness for C4: null, empty string, undefined and a number. -/
theorem claim4_witness :
    AppTrie.insert Trie.empty JSValue.nullV
      = (Except.error invalidMsg, Trie.empty) ∧
    AppTrie.insert Trie.empty (JSValue.strV "")
      = (Except.error invalidMsg, Trie.empty) ∧
    AppTrie.delete Trie.empty JSValue.undefinedV
      = (Except.error invalidMsg, Trie.empty) ∧
    AppTrie.insert Trie.empty (JSValue.numV 7)
      = (Except.error invalidMsg, Trie.empty) :=
  ⟨(claim4_invalid_input Trie.empty JSValue.nullV (by decide)).1,
   (claim4_invalid_input Trie.empty (JSValue.strV "") (by decide)).1,
   (claim4_invalid_input Trie.empty JSValue.undefinedV (by decide)).2,
   (claim4_invalid_input Trie.empty (JSValue.numV 7) (by decide)).1⟩

/-- C5: inserting a valid word twice keeps search true, increments the
terminal node's frequency by exactly one on each insert, never
increments wordCount on the second insert, and increments it at most
once on the first. -/
theorem claim5_double_insert (t : Trie) (s : String) (hs : s ≠ "") :
    AppTrie.search
        (AppTrie.insert (AppTrie.insert t (.strV s)).2 (.strV s)).2
        (.strV s) = true ∧
    freqAtD (AppTrie.insert t (.strV s)).2.root (lowerChars s)
      = freqAtD t.root (lowerChars s) + 1 ∧
    freqAtD (AppTrie.insert (AppTrie.insert t (.strV s)).2 (.strV s)).2.root
        (lowerChars s)
      = freqAtD (AppTrie.insert t (.strV s)).2.root (lowerChars s) + 1 ∧
    (AppTrie.insert (AppTrie.insert t (.strV s)).2 (.strV s)).2.wordCount
      = (AppTrie.insert t (.strV s)).2.wordCount ∧
    (AppTrie.insert t (.strV s)).2.wordCount ≤ t.wordCount + 1 := by
  rw [AppTrie.insert_valid t s hs, AppTrie.insert_valid _ s hs]
  refine ⟨?_, ?_, ?_, ?_, ?_⟩
  · rw [AppTrie.search_valid _ s hs]
    exact searchGo_insertGo (lowerChars s) _
  · exact freqAtD_insertGo (lowerChars s) t.root
  · exact freqAtD_insertGo (lowerChars s) _
  · have h2 : (insertGo (insertGo t.root (lowerChars s)).1
        (lowerChars s)).2 = false := by
      rw [insertGo_inc, searchGo_insertGo]
      rfl
    simp [h2]
  · cases hi : (insertGo t.root (lowerChars s)).2 <;> simp [hi]

/-- Witness for C5: the empty trie and the word "a". -/
theorem claim5_witness :
    ("a" : String) ≠ "" ∧
    AppTrie.search
        (AppTrie.insert (AppTrie.insert Trie.empty (.strV "a")).2
          (.strV "a")).2 (.strV "a") = true :=
  ⟨by decide, (claim5_double_insert Trie.empty "a" (by decide)).1⟩

/-- C6: from any trie state, after inserting "cat" and "car", deleting
"cat" leaves search("car") true and keeps the shared nodes for the paths
"c" and "ca" (pruning stops at the node that still has another
child). -/
theorem claim6_shared_nodes (t : Trie) :
    AppTrie.search
      (AppTrie.delete
        (AppTrie.insert (AppTrie.insert t (.strV "cat")).2 (.strV "car")).2
        (.strV "cat")).2 (.strV "car") = true ∧
    pathEx (AppTrie.delete
        (AppTrie.insert (AppTrie.insert t (.strV "cat")).2 (.strV "car")).2
        (.strV "cat")).2.root (lowerChars "c") = true ∧
    pathEx (AppTrie.delete
        (AppTrie.insert (AppTrie.insert t (.strV "cat")).2 (.strV "car")).2
        (.strV "cat")).2.root (lowerChars "ca") = true := by
  have hct : ("cat" : String) ≠ "" := by decide
  have hcr : ("car" : String) ≠ "" := by decide
  rw [AppTrie.insert_valid t "cat" hct, AppTrie.insert_valid _ "car" hcr,
    AppTrie.delete_valid _ "cat" hct]
  have hne : lowerChars "cat" ≠ lowerChars "car" := by decide
  have hsearch : searchGo
      (deleteGo (insertGo (insertGo t.root (lowerChars "cat")).1
        (lowerChars "car")).1 (lowerChars "cat")).1
      (lowerChars "car") = true := by
    rw [searchGo_deleteGo_ne _ _ _ hne]
    exact searchGo_insertGo _ _
  refine ⟨?_, ?_, ?_⟩
  · rw [AppTrie.search_valid _ "car" hcr]
    exact hsearch
  · have hp := pathEx_of_searchGo _ _ hsearch
    have hsplit : lowerChars "car" = lowerChars "c" ++ ['a', 'r'] := by
      decide
    rw [hsplit] at hp
    exact pathEx_append _ _ _ hp
  · have hp := pathEx_of_searchGo _ _ hsearch
    have hsplit : lowerChars "car" = lowerChars "ca" ++ ['r'] := by decide
    rw [hsplit] at hp
    exact pathEx_append _ _ _ hp

/-- C7: membership is case-insensitive; after insert("Cat"), both
search("cat") and search("CAT") return true, from any starting state. -/
theorem claim7_case_insensitive (t : Trie) :
    AppTrie.search (AppTrie.insert t (.strV "Cat")).2 (.strV "cat") = true ∧
    AppTrie.search (AppTrie.insert t (.strV "Cat")).2 (.strV "CAT") = true := by
  have h1 : ("Cat" : String) ≠ "" := by decide
  have h2 : ("cat" : String) ≠ "" := by decide
  have h3 : ("CAT" : String) ≠ "" := by decide
  rw [AppTrie.insert_valid t "Cat" h1]
  constructor
  · rw [AppTrie.search_valid _ "cat" h2]
    have he : lowerChars "cat" = lowerChars "Cat" := by decide
    rw [he]
    exact searchGo_insertGo _ _
  · rw [AppTrie.search_valid _ "CAT" h3]
    have he : lowerChars "CAT" = lowerChars "Cat" := by decide
    rw [he]
    exact searchGo_insertGo _ _

/-- C8: the export of a trie containing only "ab" is a root record with
one chain: depth-1 record for 'a' (not end-of-word), whose single child
is the depth-2 record of the 'ab' path (end-of-word, frequency 1); the
display names accumulate the characters below the fixed root label, and
childless records carry no children field. -/
theorem claim8_export_shape :
    AppTrie.getD3Data (AppTrie.insert Trie.empty (.strV "ab")).2 =
      D3Node.mk "root" "" false 0 0 (some
        [D3Node.mk "roota" "a" false 0 1 (some
          [D3Node.mk "rootab" "b" true 1 2 none])]) := rfl

/-- C9: on sequences of insert/search/delete with non-empty,
already-lowercase words, the App.jsx trie and the components/Trie.js
trie produce the same search results, the same wordCount and the same
exported hierarchy, starting from empty tries. -/
theorem claim9_equivalence (ops : List Op)
    (h : ∀ o ∈ ops, validOp o = true) :
    runApp ops = runComp ops ∧
    (runApp ops).1.wordCount = (runComp ops).1.wordCount ∧
    AppTrie.getD3Data (runApp ops).1 = CompTrie.getD3Data (runComp ops).1 := by
  have hrun : runApp ops = runComp ops := foldl_agree ops _ h
  refine ⟨hrun, by rw [hrun], ?_⟩
  rw [hrun]
  rfl

/-- Witness for C9: insert "ab" then search it. -/
theorem claim9_witness :
    (∀ o ∈ [Op.ins "ab", Op.sea "ab"], validOp o = true) ∧
    runApp [Op.ins "ab", Op.sea "ab"] = runComp [Op.ins "ab", Op.sea "ab"] :=
  ⟨by decide, (claim9_equivalence [Op.ins "ab", Op.sea "ab"] (by decide)).1⟩

/-- C10: whenever they do not throw, insert and delete return the
literal true on every call (also when nothing changed; the standalone
copy returns true unconditionally), so the returned marker never tells
whether a word was added or removed. -/
theorem claim10_return_true (t : Trie) (w : JSValue) (s : String) :
    ((AppTrie.insert t w).1 = Except.error invalidMsg ∨
      (AppTrie.insert t w).1 = Except.ok true) ∧
    ((AppTrie.delete t w).1 = Except.error invalidMsg ∨
      (AppTrie.delete t w).1 = Except.ok true) ∧
    (CompTrie.insert t s).1 = true ∧
    (CompTrie.delete t s).1 = true := by
  unfold AppTrie.insert AppTrie.delete CompTrie.insert CompTrie.delete
  by_cases hv : (!jsTruthy w || !jsIsString w) = true
  · rw [if_pos hv, if_pos hv]
    exact ⟨Or.inl rfl, Or.inl rfl, rfl, rfl⟩
  · rw [if_neg hv, if_neg hv]
    exact ⟨Or.inr rfl, Or.inr rfl, rfl, rfl⟩
